import Mathlib

/-!
Verification of the search-and-evaluation core of a minimax chess engine
(static material evaluation, depth-bounded alpha-beta search, root move
selection).  The chess rules engine (board representation, legal move
generation, terminal-state detection) is an external black box; a position is
therefore embedded as an abstract game node carrying the answers the core
queries from the rules engine: the side to move, the terminal classification
flags, the per-colour material counts, and the list of legal moves together
with the position reached by each move.

Scores are integers extended with two infinities, mirroring the float
`inf` sentinels of the source; in-place mutation of the board handle
(`push`/`pop`) is embedded as explicit state passing over a current position
plus a stack of saved positions.
-/

namespace ChessAB

/-- The score type of the evaluator and the search: an integer, or one of the
two infinite sentinels (`⊥` = -inf, `⊤` = +inf), linearly ordered. -/
abbrev Score : Type := WithBot (WithTop ℤ)

/-- Embeds a plain integer score into `Score`. -/
def intScore (z : ℤ) : Score := ((z : WithTop ℤ) : Score)

/-- Negation on scores: swaps the two infinities and negates finite values. -/
def scoreNeg : Score → Score :=
  WithBot.recBotCoe (⊤ : Score)
    (WithTop.recTopCoe (⊥ : Score) (fun z => intScore (-z)))

/-- The piece kinds of chess. -/
inductive Piece : Type where
  | pawn
  | knight
  | bishop
  | rook
  | queen
  | king
deriving DecidableEq

/-- Material of one colour: how many pieces of each kind are on the board. -/
structure Mat where
  pawn : Nat
  knight : Nat
  bishop : Nat
  rook : Nat
  queen : Nat
  king : Nat

/-- Number of pieces of a given kind (the length of the square set the rules
engine returns for that kind and colour). -/
def Mat.count (m : Mat) : Piece → Nat
  | .pawn => m.pawn
  | .knight => m.knight
  | .bishop => m.bishop
  | .rook => m.rook
  | .queen => m.queen
  | .king => m.king

/-- Moves are opaque identifiers supplied by the rules engine. -/
abbrev Move : Type := Nat

/-- A position as seen by the search core: the rules-engine answers to every
query the core makes.  `legalMoves` pairs each legal move with the position
the rules engine produces when that move is pushed. -/
inductive Position : Type where
  | mk (turn isCheckmate isStalemate isInsufficientMaterial otherGameOver : Bool)
      (whitePieces blackPieces : Mat)
      (legalMoves : List (Move × Position))

/-- Side to move: `true` is White (as in the source, where WHITE is truthy). -/
def Position.turn : Position → Bool
  | .mk t _ _ _ _ _ _ _ => t

/-- Rules-engine checkmate flag for the position. -/
def Position.isCheckmate : Position → Bool
  | .mk _ c _ _ _ _ _ _ => c

/-- Rules-engine stalemate flag for the position. -/
def Position.isStalemate : Position → Bool
  | .mk _ _ s _ _ _ _ _ => s

/-- Rules-engine insufficient-material flag for the position. -/
def Position.isInsufficientMaterial : Position → Bool
  | .mk _ _ _ i _ _ _ _ => i

/-- Any further rules-engine terminal condition (seventy-five-move rule,
fivefold repetition, ...) that makes `is_game_over` true. -/
def Position.otherGameOver : Position → Bool
  | .mk _ _ _ _ o _ _ _ => o

/-- White's material counts. -/
def Position.whitePieces : Position → Mat
  | .mk _ _ _ _ _ w _ _ => w

/-- Black's material counts. -/
def Position.blackPieces : Position → Mat
  | .mk _ _ _ _ _ _ b _ => b

/-- The legal moves of the position, each paired with the resulting position. -/
def Position.legalMoves : Position → List (Move × Position)
  | .mk _ _ _ _ _ _ _ l => l

/-- The rules engine's `is_game_over`: some terminal condition holds. -/
def Position.isGameOver (p : Position) : Bool :=
  p.isCheckmate || p.isStalemate || p.isInsufficientMaterial || p.otherGameOver

/-- The fixed weight table of the evaluator (the king carries no weight and
does not appear, exactly as in the source dictionary). -/
def piece_values : List (Piece × ℤ) :=
  [(.pawn, 1), (.knight, 3), (.bishop, 3), (.rook, 5), (.queen, 9)]

/-- Count of pieces of one kind and colour, `true` selecting White. -/
def pieces_count (p : Position) (k : Piece) (white : Bool) : Nat :=
  (if white then p.whitePieces else p.blackPieces).count k

/-- The material-balance loop of `evaluate_board`: for each weighted kind, add
White's count times the weight and subtract Black's count times the weight. -/
def material_score (p : Position) : ℤ :=
  piece_values.foldl
    (fun s kv =>
      s + (pieces_count p kv.1 true : ℤ) * kv.2
        - (pieces_count p kv.1 false : ℤ) * kv.2) 0

/-- The evaluator `evaluate_board`: +inf for a checkmate with Black to move, -inf for a
checkmate with White to move, 0 for stalemate or insufficient material, and
otherwise the material balance. -/
def evaluate_board (p : Position) : Score :=
  if p.isCheckmate = true then (if p.turn = true then ⊥ else ⊤)
  else if p.isStalemate = true ∨ p.isInsufficientMaterial = true then (0 : Score)
  else intScore (material_score p)

/-- The maximizing move loop of `alpha_beta`: `f child α β` is the recursive
search of a child (made with the window current at that iteration); `value`
accumulates the running maximum, `α` is raised to the running maximum, and the
loop breaks as soon as `α ≥ β`, returning the current value. -/
def loopMax (f : Position → Score → Score → Score) :
    List (Move × Position) → Score → Score → Score → Score
  | [], _, _, value => value
  | mc :: rest, α, β, value =>
    let value' := max value (f mc.2 α β)
    let α' := max α value'
    if β ≤ α' then value' else loopMax f rest α' β value'

/-- The minimizing move loop of `alpha_beta`, symmetric to `loopMax`: `value`
accumulates the running minimum, `β` is lowered to it, and the loop breaks as
soon as `β ≤ α`. -/
def loopMin (f : Position → Score → Score → Score) :
    List (Move × Position) → Score → Score → Score → Score
  | [], _, _, value => value
  | mc :: rest, α, β, value =>
    let value' := min value (f mc.2 α β)
    let β' := min β value'
    if β' ≤ α then value' else loopMin f rest α β' value'

/-- The alpha-beta search.  At depth 0 or in a game-over position it returns
the static evaluation; otherwise it runs the maximizing or minimizing loop
over the legal moves, recursing at depth - 1 with the alternation flag
flipped.  (In the source the two base cases are a single
`depth == 0 or is_game_over` test; splitting on the depth first is the same
function, since at depth 0 the evaluation is returned either way.) -/
def alpha_beta : Position → Nat → Score → Score → Bool → Score
  | p, 0, _, _, _ => evaluate_board p
  | p, d + 1, α, β, maximizing =>
    if p.isGameOver = true then evaluate_board p
    else if maximizing = true then
      loopMax (fun c a b => alpha_beta c d a b false) p.legalMoves α β ⊥
    else
      loopMin (fun c a b => alpha_beta c d a b true) p.legalMoves α β ⊤

/-- Exhaustive depth-limited minimax with the same leaf evaluation and the
same flag alternation as `alpha_beta`, but no pruning: the reference function
for the pruning-equivalence property. -/
def minimax : Position → Nat → Bool → Score
  | p, 0, _ => evaluate_board p
  | p, d + 1, maximizing =>
    if p.isGameOver = true then evaluate_board p
    else if maximizing = true then
      (p.legalMoves.map (fun mc => minimax mc.2 d false)).foldl max ⊥
    else
      (p.legalMoves.map (fun mc => minimax mc.2 d true)).foldl min ⊤

/-- The maximizing flag `select_move` hands to the first-level search call:
`not board.turn` read from the board after the candidate move has been
pushed, i.e. the negation of the side to move of the child position. -/
def rootCallFlag (child : Position) : Bool := !child.turn

/-- The score `select_move` computes for one candidate root move: a search of
the child at depth - 1, seeded with the fresh full window (-inf, +inf) and
the flag `rootCallFlag`. -/
def rootCandidateVal (depth : Nat) (mc : Move × Position) : Score :=
  alpha_beta mc.2 (depth - 1) ⊥ ⊤ (rootCallFlag mc.2)

/-- The candidate loop of `select_move` over the legal moves of the root
position `p`: the running best value and best move are updated exactly when
the root side to move is White and the candidate value is strictly greater,
or the root side to move is Black and it is strictly smaller. -/
def selectLoop (depth : Nat) (p : Position) :
    List (Move × Position) → Score → Option Move → Option Move
  | [], _, best => best
  | mc :: rest, bestVal, best =>
    let val := rootCandidateVal depth mc
    if p.turn = true ∧ bestVal < val then selectLoop depth p rest val (some mc.1)
    else if p.turn = false ∧ val < bestVal then selectLoop depth p rest val (some mc.1)
    else selectLoop depth p rest bestVal best

/-- The root move selector `select_move`.  The running best value starts at
-inf when White is to move and +inf when Black is to move, and the first
candidate strictly beating it (in the direction of the root's side to move)
becomes the new best. -/
def select_move (p : Position) (depth : Nat) : Option Move :=
  selectLoop depth p p.legalMoves (if p.turn = true then ⊥ else ⊤) none

/-- Folding `max` of `g` over a list, starting from `v`: the value an
unpruned maximizing node computes. -/
def listMaxFrom (g : Move × Position → Score) (l : List (Move × Position)) (v : Score) : Score :=
  l.foldl (fun a mc => max a (g mc)) v

/-- Folding `min` of `g` over a list, starting from `v`: the value an
unpruned minimizing node computes. -/
def listMinFrom (g : Move × Position → Score) (l : List (Move × Position)) (v : Score) : Score :=
  l.foldl (fun a mc => min a (g mc)) v

/-- The window invariant of fail-soft alpha-beta: a search result `v`
obtained with window `(α, β)` relates to the exact minimax value `m` by:
failing low bounds `m` from above, failing high bounds it from below, and a
result strictly inside the window is exact. -/
def ABSpec (α β v m : Score) : Prop :=
  (v ≤ α → m ≤ v) ∧ (β ≤ v → v ≤ m) ∧ (α < v → v < β → v = m)

/-- The mutable board handle of the source, made explicit: the current
position together with the stack of positions saved by pushes that have not
yet been popped. -/
structure BoardState where
  cur : Position
  stack : List Position

/-- Pushing a move: the current position is saved on the stack and replaced
by the position the rules engine produces for the move. -/
def BoardState.push (st : BoardState) (child : Position) : BoardState :=
  ⟨child, st.cur :: st.stack⟩

/-- Popping: the most recently saved position is restored.  (The search never
pops an empty stack; the identity there is a harmless total completion.) -/
def BoardState.pop (st : BoardState) : BoardState :=
  match st.stack with
  | [] => st
  | q :: rest => ⟨q, rest⟩

/-- The maximizing loop of `alpha_beta` with the board mutation explicit:
each iteration pushes the move, searches the child (through `f`), pops, and
then updates the running value and window exactly as `loopMax` does. -/
def loopMaxSt (f : BoardState → Score → Score → Score × BoardState) :
    List (Move × Position) → BoardState → Score → Score → Score → Score × BoardState
  | [], st, _, _, value => (value, st)
  | mc :: rest, st, α, β, value =>
    let r := f (st.push mc.2) α β
    let st2 := r.2.pop
    let value' := max value r.1
    let α' := max α value'
    if β ≤ α' then (value', st2) else loopMaxSt f rest st2 α' β value'

/-- The minimizing loop of `alpha_beta` with the board mutation explicit. -/
def loopMinSt (f : BoardState → Score → Score → Score × BoardState) :
    List (Move × Position) → BoardState → Score → Score → Score → Score × BoardState
  | [], st, _, _, value => (value, st)
  | mc :: rest, st, α, β, value =>
    let r := f (st.push mc.2) α β
    let st2 := r.2.pop
    let value' := min value r.1
    let β' := min β value'
    if β' ≤ α then (value', st2) else loopMinSt f rest st2 α β' value'

/-- The search `alpha_beta` with the board handle threaded explicitly: the direct
embedding of the source function, returning the score together with the
board state as it is when the call returns. -/
def alpha_beta_st : BoardState → Nat → Score → Score → Bool → Score × BoardState
  | st, 0, _, _, _ => (evaluate_board st.cur, st)
  | st, d + 1, α, β, maximizing =>
    if st.cur.isGameOver = true then (evaluate_board st.cur, st)
    else if maximizing = true then
      loopMaxSt (fun s a b => alpha_beta_st s d a b false) st.cur.legalMoves st α β ⊥
    else
      loopMinSt (fun s a b => alpha_beta_st s d a b true) st.cur.legalMoves st α β ⊤

/-- The candidate loop of `select_move` with the board mutation explicit:
push, search the child (reading `not board.turn` from the pushed board), pop,
then compare against the running best reading the turn from the popped
board. -/
def selectLoopSt (depth : Nat) :
    List (Move × Position) → BoardState → Score → Option Move → Option Move × BoardState
  | [], st, _, best => (best, st)
  | mc :: rest, st, bestVal, best =>
    let stP := st.push mc.2
    let r := alpha_beta_st stP (depth - 1) ⊥ ⊤ (rootCallFlag stP.cur)
    let st2 := r.2.pop
    if st2.cur.turn = true ∧ bestVal < r.1 then
      selectLoopSt depth rest st2 r.1 (some mc.1)
    else if st2.cur.turn = false ∧ r.1 < bestVal then
      selectLoopSt depth rest st2 r.1 (some mc.1)
    else selectLoopSt depth rest st2 bestVal best

/-- The selector `select_move` with the board handle threaded explicitly. -/
def select_move_st (st : BoardState) (depth : Nat) : Option Move × BoardState :=
  selectLoopSt depth st.cur.legalMoves st (if st.cur.turn = true then ⊥ else ⊤) none

/-- The maximizing loop of the fuel-instrumented search: identical to
`loopMax` except that the child search may report fuel exhaustion, which is
propagated. -/
def loopMaxF (f : Position → Score → Score → Option Score) :
    List (Move × Position) → Score → Score → Score → Option Score
  | [], _, _, value => some value
  | mc :: rest, α, β, value =>
    match f mc.2 α β with
    | none => none
    | some r =>
      let value' := max value r
      let α' := max α value'
      if β ≤ α' then some value' else loopMaxF f rest α' β value'

/-- The minimizing loop of the fuel-instrumented search. -/
def loopMinF (f : Position → Score → Score → Option Score) :
    List (Move × Position) → Score → Score → Score → Option Score
  | [], _, _, value => some value
  | mc :: rest, α, β, value =>
    match f mc.2 α β with
    | none => none
    | some r =>
      let value' := min value r
      let β' := min β value'
      if β' ≤ α then some value' else loopMinF f rest α β' value'

/-- The search `alpha_beta` instrumented with a fuel bound on the recursion: each
recursive call consumes one unit of fuel and is made at depth - 1, and the
search reports `none` when the fuel is exhausted.  With the first argument
`0` the very first step already fails, so a `some` result certifies that the
whole recursion tree was explored within the given call-depth budget. -/
def alpha_beta_fuel : Nat → Position → Nat → Score → Score → Bool → Option Score
  | 0, _, _, _, _, _ => none
  | fuel + 1, p, depth, α, β, maximizing =>
    if depth = 0 ∨ p.isGameOver = true then some (evaluate_board p)
    else if maximizing = true then
      loopMaxF (fun c a b => alpha_beta_fuel fuel c (depth - 1) a b false)
        p.legalMoves α β ⊥
    else
      loopMinF (fun c a b => alpha_beta_fuel fuel c (depth - 1) a b true)
        p.legalMoves α β ⊤

/-- Two positions related by swapping every piece's colour and mirroring the
board: the side to move flips, each colour's material counts become the other
colour's, and the terminal classifications carry over (now describing the
swapped side to move). -/
def Mirrors (p q : Position) : Prop :=
  q.turn = !p.turn ∧ q.whitePieces = p.blackPieces ∧ q.blackPieces = p.whitePieces ∧
  q.isCheckmate = p.isCheckmate ∧ q.isStalemate = p.isStalemate ∧
  q.isInsufficientMaterial = p.isInsufficientMaterial

/-!
Concrete positions used by witnesses and counterexamples.  Positions lying
at the horizon of the searches below are truncated: their move lists are
written as far as any of the searches consults them.
-/

/-- A lone king: no material beyond the king itself. -/
def loneKing : Mat := ⟨0, 0, 0, 0, 0, 1⟩

/-- A king and five pawns. -/
def fivePawns : Mat := ⟨5, 0, 0, 0, 0, 1⟩

/-- A king and four pawns. -/
def fourPawns : Mat := ⟨4, 0, 0, 0, 0, 1⟩

/-- A king, queen and rook. -/
def queenRook : Mat := ⟨0, 0, 0, 1, 1, 1⟩

/-- A balanced middlegame material count for White. -/
def midW : Mat := ⟨8, 2, 2, 2, 1, 1⟩

/-- A middlegame material count for Black: a pawn and a knight down. -/
def midB : Mat := ⟨7, 1, 2, 2, 1, 1⟩

/-- After Black's quiet reply: White to move, still five pawns up. -/
def gcQuiet : Position := .mk true false false false false fivePawns loneKing []

/-- After Black's king takes a pawn: White to move, four pawns up. -/
def gcTaken : Position := .mk true false false false false fourPawns loneKing []

/-- The position after White's candidate move: Black to move, with a quiet
reply worth +5 to White and a capturing reply worth +4. -/
def childDemo : Position :=
  .mk false false false false false fivePawns loneKing [(1, gcQuiet), (2, gcTaken)]

/-- A root with White to move and (at least) the one candidate move `0`
leading to `childDemo`. -/
def rootC1 : Position :=
  .mk true false false false false fivePawns loneKing [(0, childDemo)]

/-- White checkmated (White to move, mated by Black's queen and rook). -/
def gcMateA : Position := .mk true true false false false loneKing queenRook []

/-- White checkmated, one line later in a position with an extra black pawn. -/
def gcMateB : Position :=
  .mk true true false false false loneKing ⟨1, 0, 0, 1, 1, 1⟩ []

/-- Black to move with a forced mating reply. -/
def childMateA : Position :=
  .mk false false false false false loneKing queenRook [(10, gcMateA)]

/-- Black to move with a forced mating reply, second variation. -/
def childMateB : Position :=
  .mk false false false false false loneKing ⟨1, 0, 0, 1, 1, 1⟩ [(11, gcMateB)]

/-- A root where White is to move, has two legal moves, and both run into a
forced mate: every candidate scores -inf at depth 2. -/
def rootMated : Position :=
  .mk true false false false false loneKing queenRook
    [(0, childMateA), (1, childMateB)]

/-- Black to move and checkmated: White has delivered mate. -/
def blackMated : Position := .mk false true false false false queenRook loneKing []

/-- Black to move and stalemated. -/
def staleDemo : Position :=
  .mk false false true false false ⟨1, 0, 0, 0, 0, 1⟩ loneKing []

/-- A quiet middlegame position, White a pawn and a knight up. -/
def midGame : Position := .mk true false false false false midW midB []

/-- The colour-swapped mirror of `midGame`: Black to move, Black a pawn and a
knight up. -/
def midGameM : Position := .mk false false false false false midB midW []

/-!
Basic lemmas about scores and the evaluator.
-/

theorem scoreNeg_bot : scoreNeg ⊥ = ⊤ := rfl

theorem scoreNeg_top : scoreNeg ⊤ = ⊥ := rfl

theorem scoreNeg_intScore (z : ℤ) : scoreNeg (intScore z) = intScore (-z) := rfl

theorem intScore_zero : intScore 0 = 0 := rfl

theorem scoreNeg_zero : scoreNeg 0 = 0 := rfl

theorem material_score_swap (p q : Position)
    (hw : q.whitePieces = p.blackPieces) (hb : q.blackPieces = p.whitePieces) :
    material_score q = -material_score p := by
  simp [material_score, piece_values, pieces_count, hw, hb]
  ring

/-- C5: in a checkmate position `evaluate_board` returns +inf when the side
to move is Black and -inf when it is White; in a stalemate or
insufficient-material position that is not checkmate it returns exactly 0. -/
theorem evaluate_terminal_scores (p : Position) :
    (p.isCheckmate = true →
      (p.turn = false → evaluate_board p = ⊤) ∧
      (p.turn = true → evaluate_board p = ⊥)) ∧
    (p.isCheckmate = false →
      p.isStalemate = true ∨ p.isInsufficientMaterial = true →
      evaluate_board p = 0) := by
  constructor
  · intro hc
    constructor <;> intro ht <;> simp [evaluate_board, hc, ht]
  · intro hc hs
    simp only [evaluate_board, hc, Bool.false_eq_true, if_false]
    rw [if_pos hs]

/-- Witness for C5: a concrete mate by White scores +inf, a concrete
stalemate scores 0. -/
theorem evaluate_terminal_scores_witness :
    evaluate_board blackMated = ⊤ ∧ evaluate_board staleDemo = 0 :=
  ⟨((evaluate_terminal_scores blackMated).1 rfl).1 rfl,
   (evaluate_terminal_scores staleDemo).2 rfl (Or.inl rfl)⟩

/-- C6: in a position that is neither checkmate nor stalemate nor an
insufficient-material draw, `evaluate_board` is the weighted material
balance with weights pawn 1, knight 3, bishop 3, rook 5, queen 9, the king
contributing nothing. -/
theorem evaluate_material (p : Position)
    (hc : p.isCheckmate = false) (hs : p.isStalemate = false)
    (hi : p.isInsufficientMaterial = false) :
    evaluate_board p =
      intScore (((p.whitePieces.pawn : ℤ) - p.blackPieces.pawn) * 1
        + ((p.whitePieces.knight : ℤ) - p.blackPieces.knight) * 3
        + ((p.whitePieces.bishop : ℤ) - p.blackPieces.bishop) * 3
        + ((p.whitePieces.rook : ℤ) - p.blackPieces.rook) * 5
        + ((p.whitePieces.queen : ℤ) - p.blackPieces.queen) * 9) := by
  have hm : material_score p =
      ((p.whitePieces.pawn : ℤ) - p.blackPieces.pawn) * 1
        + ((p.whitePieces.knight : ℤ) - p.blackPieces.knight) * 3
        + ((p.whitePieces.bishop : ℤ) - p.blackPieces.bishop) * 3
        + ((p.whitePieces.rook : ℤ) - p.blackPieces.rook) * 5
        + ((p.whitePieces.queen : ℤ) - p.blackPieces.queen) * 9 := by
    simp [material_score, piece_values, pieces_count, Mat.count]
    ring
  simp [evaluate_board, hc, hs, hi, hm]

/-- Witness for C6: the concrete middlegame position, a pawn and a knight
up for White, evaluates to 4. -/
theorem evaluate_material_witness : evaluate_board midGame = intScore 4 := by
  have h := evaluate_material midGame rfl rfl rfl
  rw [h]; rfl

/-- C9: mirroring a position (swapping every piece's colour, the side to
move, and the terminal classifications accordingly) negates the evaluator's
score. -/
theorem evaluate_mirror (p q : Position) (h : Mirrors p q) :
    evaluate_board q = scoreNeg (evaluate_board p) := by
  obtain ⟨ht, hw, hb, hc, hs, hi⟩ := h
  unfold evaluate_board
  rw [hc, hs, hi, ht]
  cases hcm : p.isCheckmate with
  | true =>
    cases htn : p.turn <;> simp [scoreNeg_top, scoreNeg_bot]
  | false =>
    simp only [Bool.false_eq_true, if_false]
    by_cases hdraw : p.isStalemate = true ∨ p.isInsufficientMaterial = true
    · rw [if_pos hdraw, if_pos hdraw, scoreNeg_zero]
    · rw [if_neg hdraw, if_neg hdraw, material_score_swap p q hw hb, scoreNeg_intScore]

/-- Witness for C9: the concrete middlegame position and its mirror. -/
theorem evaluate_mirror_witness :
    evaluate_board midGameM = scoreNeg (evaluate_board midGame) :=
  evaluate_mirror midGame midGameM ⟨rfl, rfl, rfl, rfl, rfl, rfl⟩

/-- C8: at depth 0 the search returns the static evaluation whatever the
window and flag are, and in a game-over position it does so at every
depth. -/
theorem depth_zero_and_terminal (p : Position) (α β : Score) (maximizing : Bool) :
    alpha_beta p 0 α β maximizing = evaluate_board p ∧
    (∀ d : Nat, p.isGameOver = true → alpha_beta p d α β maximizing = evaluate_board p) := by
  refine ⟨rfl, fun d h => ?_⟩
  cases d with
  | zero => rfl
  | succ d => simp [alpha_beta, h]

/-- Witness for C8: a checkmate position searched at depth 3 with a
nontrivial window returns its static evaluation. -/
theorem depth_zero_and_terminal_witness :
    alpha_beta blackMated 3 (intScore 0) (intScore 1) true = evaluate_board blackMated :=
  (depth_zero_and_terminal blackMated (intScore 0) (intScore 1) true).2 3 rfl

/-- C1, amended: the flag `select_move` passes to the first-level search is
the negation of the child's side to move, which under turn alternation
equals the root's own side to move — the first-level call repeats the
root's perspective (maximizing under a White root, minimizing under a Black
root) instead of continuing the alternation. -/
theorem root_flag_alternation (p c : Position) (m : Move) (d : Nat)
    (_hmem : (m, c) ∈ p.legalMoves) (halt : c.turn = !p.turn) :
    rootCallFlag c = !c.turn ∧ rootCallFlag c = p.turn ∧
    rootCandidateVal d (m, c) = alpha_beta c (d - 1) ⊥ ⊤ p.turn := by
  refine ⟨rfl, ?_, ?_⟩ <;>
    simp [rootCallFlag, rootCandidateVal, halt, Bool.not_not]

/-- Witness for the amended C1, at the concrete root `rootC1`. -/
theorem root_flag_alternation_witness :
    rootCallFlag childDemo = !childDemo.turn ∧
    rootCallFlag childDemo = rootC1.turn ∧
    rootCandidateVal 2 (0, childDemo) = alpha_beta childDemo 1 ⊥ ⊤ rootC1.turn :=
  root_flag_alternation rootC1 childDemo 0 2 (List.Mem.head _) rfl

/-- Counterexample to C1 as stated: at the White-to-move root `rootC1`,
whose candidate move `0` reaches the Black-to-move `childDemo`, the flag
passed to the first-level call is `true`, not `false`, and the two flags
give different search results there. -/
theorem root_flag_counterexample :
    rootC1.turn = true ∧ childDemo.turn = !rootC1.turn ∧
    (0, childDemo) ∈ rootC1.legalMoves ∧
    rootCallFlag childDemo = true ∧
    rootCandidateVal 2 (0, childDemo) = alpha_beta childDemo 1 ⊥ ⊤ true ∧
    alpha_beta childDemo 1 ⊥ ⊤ true ≠ alpha_beta childDemo 1 ⊥ ⊤ false :=
  ⟨rfl, rfl, List.Mem.head _, rfl, rfl, by decide⟩

/-!
Fold bounds for the unpruned node values.
-/

theorem listMaxFrom_cons (g : Move × Position → Score) (mc : Move × Position)
    (l : List (Move × Position)) (v : Score) :
    listMaxFrom g (mc :: l) v = listMaxFrom g l (max v (g mc)) := rfl

theorem listMaxFrom_le_iff (g : Move × Position → Score) (l : List (Move × Position))
    (v x : Score) :
    listMaxFrom g l v ≤ x ↔ v ≤ x ∧ ∀ mc ∈ l, g mc ≤ x := by
  induction l generalizing v with
  | nil => simp [listMaxFrom]
  | cons mc l ih =>
    rw [listMaxFrom_cons, ih]
    simp [max_le_iff, and_assoc]

theorem le_listMaxFrom (g : Move × Position → Score) (l : List (Move × Position))
    (v : Score) : v ≤ listMaxFrom g l v :=
  ((listMaxFrom_le_iff g l v _).mp le_rfl).1

theorem elem_le_listMaxFrom (g : Move × Position → Score) (l : List (Move × Position))
    (v : Score) (mc : Move × Position) (h : mc ∈ l) : g mc ≤ listMaxFrom g l v :=
  ((listMaxFrom_le_iff g l v _).mp le_rfl).2 mc h

theorem listMaxFrom_cases (g : Move × Position → Score) (l : List (Move × Position))
    (v : Score) :
    listMaxFrom g l v = v ∨ ∃ mc ∈ l, listMaxFrom g l v = g mc := by
  induction l generalizing v with
  | nil => exact Or.inl rfl
  | cons mc l ih =>
    rw [listMaxFrom_cons]
    rcases ih (max v (g mc)) with h | ⟨x, hx, h⟩
    · rcases le_total (g mc) v with hle | hle
      · exact Or.inl (by rw [h, max_eq_left hle])
      · exact Or.inr ⟨mc, List.mem_cons_self mc l, by rw [h, max_eq_right hle]⟩
    · exact Or.inr ⟨x, List.mem_cons_of_mem mc hx, h⟩

theorem listMinFrom_cons (g : Move × Position → Score) (mc : Move × Position)
    (l : List (Move × Position)) (v : Score) :
    listMinFrom g (mc :: l) v = listMinFrom g l (min v (g mc)) := rfl

theorem le_listMinFrom_iff (g : Move × Position → Score) (l : List (Move × Position))
    (v x : Score) :
    x ≤ listMinFrom g l v ↔ x ≤ v ∧ ∀ mc ∈ l, x ≤ g mc := by
  induction l generalizing v with
  | nil => simp [listMinFrom]
  | cons mc l ih =>
    rw [listMinFrom_cons, ih]
    simp [le_min_iff, and_assoc]

theorem listMinFrom_le (g : Move × Position → Score) (l : List (Move × Position))
    (v : Score) : listMinFrom g l v ≤ v :=
  ((le_listMinFrom_iff g l v _).mp le_rfl).1

theorem listMinFrom_le_elem (g : Move × Position → Score) (l : List (Move × Position))
    (v : Score) (mc : Move × Position) (h : mc ∈ l) : listMinFrom g l v ≤ g mc :=
  ((le_listMinFrom_iff g l v _).mp le_rfl).2 mc h

theorem listMinFrom_cases (g : Move × Position → Score) (l : List (Move × Position))
    (v : Score) :
    listMinFrom g l v = v ∨ ∃ mc ∈ l, listMinFrom g l v = g mc := by
  induction l generalizing v with
  | nil => exact Or.inl rfl
  | cons mc l ih =>
    rw [listMinFrom_cons]
    rcases ih (min v (g mc)) with h | ⟨x, hx, h⟩
    · rcases le_total v (g mc) with hle | hle
      · exact Or.inl (by rw [h, min_eq_left hle])
      · exact Or.inr ⟨mc, List.mem_cons_self mc l, by rw [h, min_eq_right hle]⟩
    · exact Or.inr ⟨x, List.mem_cons_of_mem mc hx, h⟩

/-!
The pruned loops only ever raise (maximizing) or lower (minimizing) the
running value.
-/

theorem loopMax_ge (f : Position → Score → Score → Score) :
    ∀ (l : List (Move × Position)) (α β v : Score), v ≤ loopMax f l α β v := by
  intro l
  induction l with
  | nil => intro α β v; exact le_rfl
  | cons mc l ih =>
    intro α β v
    have hstep : loopMax f (mc :: l) α β v =
        if β ≤ max α (max v (f mc.2 α β)) then max v (f mc.2 α β)
        else loopMax f l (max α (max v (f mc.2 α β))) β (max v (f mc.2 α β)) := rfl
    rw [hstep]
    split
    · exact le_max_left _ _
    · exact le_trans (le_max_left _ _) (ih _ _ _)

theorem loopMin_le (f : Position → Score → Score → Score) :
    ∀ (l : List (Move × Position)) (α β v : Score), loopMin f l α β v ≤ v := by
  intro l
  induction l with
  | nil => intro α β v; exact le_rfl
  | cons mc l ih =>
    intro α β v
    have hstep : loopMin f (mc :: l) α β v =
        if min β (min v (f mc.2 α β)) ≤ α then min v (f mc.2 α β)
        else loopMin f l α (min β (min v (f mc.2 α β))) (min v (f mc.2 α β)) := rfl
    rw [hstep]
    split
    · exact min_le_left _ _
    · exact le_trans (ih _ _ _) (min_le_left _ _)

/-- Window invariant of the maximizing loop: if every child search satisfies
the fail-soft window invariant against its exact minimax value, then the
whole loop satisfies it against the unpruned maximum, whatever running value
the loop starts from. -/
theorem loopMax_spec (f : Position → Score → Score → Score) (g : Position → Score)
    (hf : ∀ c a b, a < b → ABSpec a b (f c a b) (g c)) (β : Score) :
    ∀ (l : List (Move × Position)) (α v : Score), α < β →
      ABSpec α β (loopMax f l α β v) (listMaxFrom (fun mc => g mc.2) l v) := by
  intro l
  induction l with
  | nil =>
    intro α v hαβ
    exact ⟨fun _ => le_rfl, fun _ => le_rfl, fun _ _ => rfl⟩
  | cons mc l ih =>
    intro α v hαβ
    obtain ⟨hc1, hc2, hc3⟩ := hf mc.2 α β hαβ
    have hstep : loopMax f (mc :: l) α β v =
        if β ≤ max α (max v (f mc.2 α β)) then max v (f mc.2 α β)
        else loopMax f l (max α (max v (f mc.2 α β))) β (max v (f mc.2 α β)) := rfl
    rw [hstep]
    simp only [listMaxFrom_cons]
    set r := f mc.2 α β with hrEq
    set v' := max v r with hvEq
    set α' := max α v' with haEq
    have hvm : v ≤ listMaxFrom (fun x => g x.2) l (max v (g mc.2)) :=
      le_trans (le_max_left _ _) (le_listMaxFrom _ _ _)
    have hgm : g mc.2 ≤ listMaxFrom (fun x => g x.2) l (max v (g mc.2)) :=
      le_trans (le_max_right _ _) (le_listMaxFrom _ _ _)
    have helem : ∀ x ∈ l, g x.2 ≤ listMaxFrom (fun x => g x.2) l (max v (g mc.2)) :=
      fun x hx => elem_le_listMaxFrom (fun y => g y.2) l (max v (g mc.2)) x hx
    have hr_le_v : r < v' → r ≤ v := by
      intro h
      rcases le_total r v with h' | h'
      · exact h'
      · rw [hvEq, max_eq_right h'] at h
        exact absurd h (lt_irrefl r)
    by_cases hbr : β ≤ α'
    · rw [if_pos hbr]
      have hβv' : β ≤ v' := by
        rcases le_max_iff.mp hbr with h | h
        · exact absurd h (not_le.mpr hαβ)
        · exact h
      refine ⟨fun hle => absurd (hβv'.trans hle) (not_le.mpr hαβ), fun _ => ?_,
        fun _ hlt => absurd hβv' (not_le.mpr hlt)⟩
      refine max_le hvm ?_
      by_cases hrβ : β ≤ r
      · exact le_trans (hc2 hrβ) hgm
      · have hβv : β ≤ v := by
          rcases le_max_iff.mp hβv' with h | h
          · exact h
          · exact absurd h hrβ
        exact le_trans (le_of_lt (lt_of_lt_of_le (not_le.mp hrβ) hβv)) hvm
    · rw [if_neg hbr]
      have hα'β : α' < β := not_le.mp hbr
      obtain ⟨h1, h2, h3⟩ := ih α' v' hα'β
      set res := loopMax f l α' β v' with hresEq
      have hMle : ∀ res' : Score, v' ≤ res' → (∀ x ∈ l, g x.2 ≤ res') → res' < β →
          listMaxFrom (fun x => g x.2) l (max v (g mc.2)) ≤ res' := by
        intro res' hv'r hlr hr'β
        rw [listMaxFrom_le_iff]
        refine ⟨max_le (le_trans (le_max_left v r) hv'r) ?_, hlr⟩
        by_cases hrα : r ≤ α
        · exact le_trans (hc1 hrα) (le_trans (le_max_right v r) hv'r)
        · have hαr : α < r := not_le.mp hrα
          have hrβ : r < β := lt_of_le_of_lt (le_trans (le_max_right v r) hv'r) hr'β
          rw [← hc3 hαr hrβ]
          exact le_trans (le_max_right v r) hv'r
      refine ⟨?_, ?_, ?_⟩
      · intro hle
        have hle' : res ≤ α' := le_trans hle (le_max_left _ _)
        obtain ⟨hv'res, hlres⟩ := (listMaxFrom_le_iff _ l v' res).mp (h1 hle')
        have hrres : r ≤ res := le_trans (le_max_right v r) hv'res
        rw [listMaxFrom_le_iff]
        exact ⟨max_le (le_trans (le_max_left v r) hv'res)
          (le_trans (hc1 (hrres.trans hle)) hrres), hlres⟩
      · intro hβres
        have hresm := h2 hβres
        rcases listMaxFrom_cases (fun x => g x.2) l v' with hcase2 | ⟨x, hx, hcase2⟩
        · rw [hcase2] at hresm
          rcases le_max_iff.mp hresm with h | h
          · exact le_trans h hvm
          · exact le_trans h (le_trans (hc2 (le_trans hβres h)) hgm)
        · rw [hcase2] at hresm
          exact le_trans hresm (helem x hx)
      · intro hαres hresβ
        by_cases hcase : res ≤ α'
        · obtain ⟨hv'res, hlres⟩ := (listMaxFrom_le_iff _ l v' res).mp (h1 hcase)
          have hresv' : res = v' := by
            refine le_antisymm ?_ hv'res
            rcases le_max_iff.mp hcase with h | h
            · exact absurd hαres (not_lt.mpr h)
            · exact h
          refine le_antisymm ?_ (hMle res hv'res hlres hresβ)
          rw [hresv']
          refine max_le hvm ?_
          by_cases hrα : r ≤ α
          · have hrltv' : r < v' := lt_of_le_of_lt hrα (hresv' ▸ hαres)
            exact le_trans (hr_le_v hrltv') hvm
          · have hαr : α < r := not_le.mp hrα
            have hrβ : r < β := lt_of_le_of_lt (le_trans (le_max_right v r) hv'res) hresβ
            rw [hc3 hαr hrβ]
            exact hgm
        · have hα'res : α' < res := not_le.mp hcase
          have hreseq := h3 hα'res hresβ
          obtain ⟨hv'res, hlres⟩ :=
            (listMaxFrom_le_iff (fun x => g x.2) l v' res).mp (le_of_eq hreseq.symm)
          refine le_antisymm ?_ (hMle res hv'res hlres hresβ)
          rcases listMaxFrom_cases (fun x => g x.2) l v' with hcase2 | ⟨x, hx, hcase2⟩
          · rw [hreseq, hcase2]
            refine max_le hvm ?_
            by_cases hrα : r ≤ α
            · have hresv' : res = v' := hreseq.trans hcase2
              have hrltv' : r < v' := lt_of_le_of_lt hrα (hresv' ▸ hαres)
              exact le_trans (hr_le_v hrltv') hvm
            · have hαr : α < r := not_le.mp hrα
              have hrβ : r < β := lt_of_le_of_lt (le_trans (le_max_right v r) hv'res) hresβ
              rw [hc3 hαr hrβ]
              exact hgm
          · rw [hreseq, hcase2]
            exact helem x hx

/-- Window invariant of the minimizing loop, dual to `loopMax_spec`. -/
theorem loopMin_spec (f : Position → Score → Score → Score) (g : Position → Score)
    (hf : ∀ c a b, a < b → ABSpec a b (f c a b) (g c)) (α : Score) :
    ∀ (l : List (Move × Position)) (β v : Score), α < β →
      ABSpec α β (loopMin f l α β v) (listMinFrom (fun mc => g mc.2) l v) := by
  intro l
  induction l with
  | nil =>
    intro β v hαβ
    exact ⟨fun _ => le_rfl, fun _ => le_rfl, fun _ _ => rfl⟩
  | cons mc l ih =>
    intro β v hαβ
    obtain ⟨hc1, hc2, hc3⟩ := hf mc.2 α β hαβ
    have hstep : loopMin f (mc :: l) α β v =
        if min β (min v (f mc.2 α β)) ≤ α then min v (f mc.2 α β)
        else loopMin f l α (min β (min v (f mc.2 α β))) (min v (f mc.2 α β)) := rfl
    rw [hstep]
    simp only [listMinFrom_cons]
    set r := f mc.2 α β with hrEq
    set v' := min v r with hvEq
    set β' := min β v' with hbEq
    have hvm : listMinFrom (fun x => g x.2) l (min v (g mc.2)) ≤ v :=
      le_trans (listMinFrom_le _ _ _) (min_le_left _ _)
    have hgm : listMinFrom (fun x => g x.2) l (min v (g mc.2)) ≤ g mc.2 :=
      le_trans (listMinFrom_le _ _ _) (min_le_right _ _)
    have helem : ∀ x ∈ l, listMinFrom (fun x => g x.2) l (min v (g mc.2)) ≤ g x.2 :=
      fun x hx => listMinFrom_le_elem (fun y => g y.2) l (min v (g mc.2)) x hx
    have hv_le_r : v' < r → v ≤ r := by
      intro h
      rcases le_total v r with h' | h'
      · exact h'
      · rw [hvEq, min_eq_right h'] at h
        exact absurd h (lt_irrefl r)
    by_cases hbr : β' ≤ α
    · rw [if_pos hbr]
      have hv'α : v' ≤ α := by
        rcases min_le_iff.mp hbr with h | h
        · exact absurd h (not_le.mpr hαβ)
        · exact h
      refine ⟨fun _ => ?_, fun h => absurd (h.trans hv'α) (not_le.mpr hαβ),
        fun hlt _ => absurd hv'α (not_le.mpr hlt)⟩
      refine le_min hvm ?_
      by_cases hrα : r ≤ α
      · exact le_trans hgm (hc1 hrα)
      · have hvα : v ≤ α := by
          rcases min_le_iff.mp hv'α with h | h
          · exact h
          · exact absurd h hrα
        exact le_trans hvm (le_of_lt (lt_of_le_of_lt hvα (not_le.mp hrα)))
    · rw [if_neg hbr]
      have hαβ' : α < β' := not_le.mp hbr
      obtain ⟨h1, h2, h3⟩ := ih β' v' hαβ'
      set res := loopMin f l α β' v' with hresEq
      have hMge : ∀ res' : Score, res' ≤ v' → (∀ x ∈ l, res' ≤ g x.2) → α < res' →
          res' ≤ listMinFrom (fun x => g x.2) l (min v (g mc.2)) := by
        intro res' hr'v' hlr hαr'
        rw [le_listMinFrom_iff]
        refine ⟨le_min (le_trans hr'v' (min_le_left v r)) ?_, hlr⟩
        by_cases hrβ : β ≤ r
        · exact le_trans (le_trans hr'v' (min_le_right v r)) (hc2 hrβ)
        · have hαr : α < r := lt_of_lt_of_le hαr' (le_trans hr'v' (min_le_right v r))
          rw [← hc3 hαr (not_le.mp hrβ)]
          exact le_trans hr'v' (min_le_right v r)
      refine ⟨?_, ?_, ?_⟩
      · intro hle
        have hresm := h1 hle
        rcases listMinFrom_cases (fun x => g x.2) l v' with hcase2 | ⟨x, hx, hcase2⟩
        · rw [hcase2] at hresm
          rcases min_le_iff.mp hresm with h | h
          · exact le_trans hvm h
          · exact le_trans (le_trans hgm (hc1 (le_trans h hle))) h
        · rw [hcase2] at hresm
          exact le_trans (helem x hx) hresm
      · intro hβres
        have hle' : β' ≤ res := le_trans (min_le_left _ _) hβres
        obtain ⟨hresv', hlres⟩ := (le_listMinFrom_iff _ l v' res).mp (h2 hle')
        have hrres : res ≤ r := le_trans hresv' (min_le_right v r)
        rw [le_listMinFrom_iff]
        exact ⟨le_min (le_trans hresv' (min_le_left v r))
          (le_trans hrres (hc2 (le_trans hβres hrres))), hlres⟩
      · intro hαres hresβ
        by_cases hcase : β' ≤ res
        · obtain ⟨hresv', hlres⟩ := (le_listMinFrom_iff _ l v' res).mp (h2 hcase)
          have hresv'eq : res = v' := by
            refine le_antisymm hresv' ?_
            rcases min_le_iff.mp hcase with h | h
            · exact absurd hresβ (not_lt.mpr h)
            · exact h
          refine le_antisymm (hMge res hresv' hlres hαres) ?_
          rw [hresv'eq]
          refine le_min hvm ?_
          by_cases hrβ : β ≤ r
          · have hv'β : v' < β := by rw [← hresv'eq]; exact hresβ
            exact le_trans hvm (hv_le_r (lt_of_lt_of_le hv'β hrβ))
          · have hαr : α < r :=
              lt_of_lt_of_le hαres (le_trans hresv' (min_le_right v r))
            rw [hc3 hαr (not_le.mp hrβ)]
            exact hgm
        · have hresβ' : res < β' := not_le.mp hcase
          have hreseq := h3 hαres hresβ'
          obtain ⟨hresv', hlres⟩ :=
            (le_listMinFrom_iff (fun x => g x.2) l v' res).mp (le_of_eq hreseq)
          refine le_antisymm (hMge res hresv' hlres hαres) ?_
          rcases listMinFrom_cases (fun x => g x.2) l v' with hcase2 | ⟨x, hx, hcase2⟩
          · rw [hreseq, hcase2]
            refine le_min hvm ?_
            by_cases hrβ : β ≤ r
            · have hresv'eq : res = v' := hreseq.trans hcase2
              have hv'β : v' < β := by rw [← hresv'eq]; exact hresβ
              exact le_trans hvm (hv_le_r (lt_of_lt_of_le hv'β hrβ))
            · have hαr : α < r :=
                lt_of_lt_of_le hαres (le_trans hresv' (min_le_right v r))
              rw [hc3 hαr (not_le.mp hrβ)]
              exact hgm
          · rw [hreseq, hcase2]
            exact helem x hx

/-- The fail-soft window invariant holds for the whole search at every depth
and every nonempty window. -/
theorem alpha_beta_ABSpec :
    ∀ (d : Nat) (p : Position) (α β : Score) (maximizing : Bool), α < β →
      ABSpec α β (alpha_beta p d α β maximizing) (minimax p d maximizing) := by
  intro d
  induction d with
  | zero =>
    intro p α β maximizing _
    exact ⟨fun _ => le_rfl, fun _ => le_rfl, fun _ _ => rfl⟩
  | succ d ih =>
    intro p α β maximizing hαβ
    by_cases hg : p.isGameOver = true
    · have h1 : alpha_beta p (d + 1) α β maximizing = evaluate_board p := by
        simp [alpha_beta, hg]
      have h2 : minimax p (d + 1) maximizing = evaluate_board p := by
        simp [minimax, hg]
      rw [h1, h2]
      exact ⟨fun _ => le_rfl, fun _ => le_rfl, fun _ _ => rfl⟩
    · cases maximizing with
      | true =>
        have h1 : alpha_beta p (d + 1) α β true =
            loopMax (fun c a b => alpha_beta c d a b false) p.legalMoves α β ⊥ := by
          simp [alpha_beta, hg]
        have h2 : minimax p (d + 1) true =
            listMaxFrom (fun mc => minimax mc.2 d false) p.legalMoves ⊥ := by
          simp [minimax, hg, listMaxFrom, List.foldl_map]
        rw [h1, h2]
        exact loopMax_spec _ _ (fun c a b hab => ih c a b false hab) β p.legalMoves α ⊥ hαβ
      | false =>
        have h1 : alpha_beta p (d + 1) α β false =
            loopMin (fun c a b => alpha_beta c d a b true) p.legalMoves α β ⊤ := by
          simp [alpha_beta, hg]
        have h2 : minimax p (d + 1) false =
            listMinFrom (fun mc => minimax mc.2 d true) p.legalMoves ⊤ := by
          simp [minimax, hg, listMinFrom, List.foldl_map]
        rw [h1, h2]
        exact loopMin_spec _ _ (fun c a b hab => ih c a b true hab) α p.legalMoves β ⊤ hαβ

/-- C2: over the full window (-inf, +inf), at every position, depth and
alternation flag, the pruning search returns exactly the exhaustive
depth-limited minimax value. -/
theorem pruning_equivalence (p : Position) (d : Nat) (maximizing : Bool) :
    alpha_beta p d ⊥ ⊤ maximizing = minimax p d maximizing := by
  obtain ⟨h1, h2, h3⟩ := alpha_beta_ABSpec d p ⊥ ⊤ maximizing bot_lt_top
  rcases le_or_lt (alpha_beta p d ⊥ ⊤ maximizing) ⊥ with h | h
  · have hv : alpha_beta p d ⊥ ⊤ maximizing = ⊥ := le_bot_iff.mp h
    have hm : minimax p d maximizing = ⊥ := le_bot_iff.mp (le_trans (h1 h) h)
    rw [hv, hm]
  · rcases le_or_lt ⊤ (alpha_beta p d ⊥ ⊤ maximizing) with h' | h'
    · have hv : alpha_beta p d ⊥ ⊤ maximizing = ⊤ := top_le_iff.mp h'
      have hm : minimax p d maximizing = ⊤ := top_le_iff.mp (hv ▸ h2 h')
      rw [hv, hm]
    · exact h3 h h'

/-- Two predicates that agree on the members of a list find the same first
hit. -/
theorem find_congr_mem {α : Type} (l : List α) (p q : α → Bool)
    (h : ∀ a ∈ l, p a = q a) : l.find? p = l.find? q := by
  induction l with
  | nil => rfl
  | cons a l ih =>
    have ha := h a (List.mem_cons_self a l)
    by_cases hpa : p a = true
    · rw [List.find?_cons_of_pos _ hpa, List.find?_cons_of_pos _ (ha ▸ hpa)]
    · have hpa' : p a = false := Bool.eq_false_iff.mpr hpa
      rw [List.find?_cons_of_neg _ hpa, List.find?_cons_of_neg _ (by rw [← ha]; exact hpa)]
      exact ih (fun a ha' => h a (List.mem_cons_of_mem _ ha'))

/-- The White candidate loop computes the first candidate attaining the
running maximum, provided some candidate strictly beats the incoming best
value; otherwise it keeps the incoming best move. -/
theorem selectLoop_white (p : Position) (hp : p.turn = true) (d : Nat) :
    ∀ (l : List (Move × Position)) (b : Score) (best : Option Move),
      selectLoop d p l b best =
        if ∀ mc ∈ l, rootCandidateVal d mc ≤ b then best
        else (l.find? (fun mc =>
            decide (listMaxFrom (rootCandidateVal d) l b ≤ rootCandidateVal d mc))).map
          Prod.fst := by
  intro l
  induction l with
  | nil =>
    intro b best
    simp [selectLoop]
  | cons mc l ih =>
    intro b best
    have hstep : selectLoop d p (mc :: l) b best =
        if p.turn = true ∧ b < rootCandidateVal d mc then
          selectLoop d p l (rootCandidateVal d mc) (some mc.1)
        else if p.turn = false ∧ rootCandidateVal d mc < b then
          selectLoop d p l (rootCandidateVal d mc) (some mc.1)
        else selectLoop d p l b best := rfl
    rw [hstep]
    by_cases hbV : b < rootCandidateVal d mc
    · rw [if_pos ⟨hp, hbV⟩, ih (rootCandidateVal d mc) (some mc.1)]
      have hMeq : listMaxFrom (rootCandidateVal d) (mc :: l) b
          = listMaxFrom (rootCandidateVal d) l (rootCandidateVal d mc) := by
        rw [listMaxFrom_cons, max_eq_right (le_of_lt hbV)]
      have hnotall : ¬ ∀ x ∈ mc :: l, rootCandidateVal d x ≤ b := by
        intro hall
        exact absurd (hall mc (List.mem_cons_self mc l)) (not_le.mpr hbV)
      rw [if_neg hnotall]
      by_cases hall : ∀ x ∈ l, rootCandidateVal d x ≤ rootCandidateVal d mc
      · rw [if_pos hall]
        have hMV : listMaxFrom (rootCandidateVal d) l (rootCandidateVal d mc)
            = rootCandidateVal d mc :=
          le_antisymm ((listMaxFrom_le_iff _ _ _ _).mpr ⟨le_rfl, hall⟩)
            (le_listMaxFrom _ _ _)
        rw [hMeq, hMV, List.find?_cons_of_pos _ (by simp)]
        rfl
      · rw [if_neg hall, hMeq, List.find?_cons_of_neg]
        push_neg at hall
        obtain ⟨x, hx, hVx⟩ := hall
        simp only [decide_eq_true_eq, not_le]
        exact lt_of_lt_of_le hVx (elem_le_listMaxFrom _ _ _ x hx)
    · rw [if_neg (fun h => hbV h.2),
        if_neg (fun (h : p.turn = false ∧ _) => Bool.noConfusion (hp.symm.trans h.1)),
        ih b best]
      by_cases hall : ∀ x ∈ l, rootCandidateVal d x ≤ b
      · have hallc : ∀ x ∈ mc :: l, rootCandidateVal d x ≤ b :=
          List.forall_mem_cons.mpr ⟨not_lt.mp hbV, hall⟩
        rw [if_pos hall, if_pos hallc]
      · have hnallc : ¬ ∀ x ∈ mc :: l, rootCandidateVal d x ≤ b := fun h =>
          hall (fun x hx => h x (List.mem_cons_of_mem _ hx))
        rw [if_neg hall, if_neg hnallc]
        have hMeq : listMaxFrom (rootCandidateVal d) (mc :: l) b
            = listMaxFrom (rootCandidateVal d) l b := by
          rw [listMaxFrom_cons, max_eq_left (not_lt.mp hbV)]
        rw [hMeq, List.find?_cons_of_neg]
        push_neg at hall
        obtain ⟨x, hx, hbx⟩ := hall
        simp only [decide_eq_true_eq, not_le]
        exact lt_of_le_of_lt (not_lt.mp hbV)
          (lt_of_lt_of_le hbx (elem_le_listMaxFrom _ _ _ x hx))

/-- The Black candidate loop, dual to `selectLoop_white`. -/
theorem selectLoop_black (p : Position) (hp : p.turn = false) (d : Nat) :
    ∀ (l : List (Move × Position)) (b : Score) (best : Option Move),
      selectLoop d p l b best =
        if ∀ mc ∈ l, b ≤ rootCandidateVal d mc then best
        else (l.find? (fun mc =>
            decide (rootCandidateVal d mc ≤ listMinFrom (rootCandidateVal d) l b))).map
          Prod.fst := by
  intro l
  induction l with
  | nil =>
    intro b best
    simp [selectLoop]
  | cons mc l ih =>
    intro b best
    have hstep : selectLoop d p (mc :: l) b best =
        if p.turn = true ∧ b < rootCandidateVal d mc then
          selectLoop d p l (rootCandidateVal d mc) (some mc.1)
        else if p.turn = false ∧ rootCandidateVal d mc < b then
          selectLoop d p l (rootCandidateVal d mc) (some mc.1)
        else selectLoop d p l b best := rfl
    rw [hstep, if_neg (fun (h : p.turn = true ∧ _) => Bool.noConfusion (hp.symm.trans h.1))]
    by_cases hVb : rootCandidateVal d mc < b
    · rw [if_pos ⟨hp, hVb⟩, ih (rootCandidateVal d mc) (some mc.1)]
      have hMeq : listMinFrom (rootCandidateVal d) (mc :: l) b
          = listMinFrom (rootCandidateVal d) l (rootCandidateVal d mc) := by
        rw [listMinFrom_cons, min_eq_right (le_of_lt hVb)]
      have hnotall : ¬ ∀ x ∈ mc :: l, b ≤ rootCandidateVal d x := by
        intro hall
        exact absurd (hall mc (List.mem_cons_self mc l)) (not_le.mpr hVb)
      rw [if_neg hnotall]
      by_cases hall : ∀ x ∈ l, rootCandidateVal d mc ≤ rootCandidateVal d x
      · rw [if_pos hall]
        have hMV : listMinFrom (rootCandidateVal d) l (rootCandidateVal d mc)
            = rootCandidateVal d mc :=
          le_antisymm (listMinFrom_le _ _ _)
            ((le_listMinFrom_iff _ _ _ _).mpr ⟨le_rfl, hall⟩)
        rw [hMeq, hMV, List.find?_cons_of_pos _ (by simp)]
        rfl
      · rw [if_neg hall, hMeq, List.find?_cons_of_neg]
        push_neg at hall
        obtain ⟨x, hx, hVx⟩ := hall
        simp only [decide_eq_true_eq, not_le]
        exact lt_of_le_of_lt (listMinFrom_le_elem _ _ _ x hx) hVx
    · rw [if_neg (fun h => hVb h.2), ih b best]
      by_cases hall : ∀ x ∈ l, b ≤ rootCandidateVal d x
      · have hallc : ∀ x ∈ mc :: l, b ≤ rootCandidateVal d x :=
          List.forall_mem_cons.mpr ⟨not_lt.mp hVb, hall⟩
        rw [if_pos hall, if_pos hallc]
      · have hnallc : ¬ ∀ x ∈ mc :: l, b ≤ rootCandidateVal d x := fun h =>
          hall (fun x hx => h x (List.mem_cons_of_mem _ hx))
        rw [if_neg hall, if_neg hnallc]
        have hMeq : listMinFrom (rootCandidateVal d) (mc :: l) b
            = listMinFrom (rootCandidateVal d) l b := by
          rw [listMinFrom_cons, min_eq_left (not_lt.mp hVb)]
        rw [hMeq, List.find?_cons_of_neg]
        push_neg at hall
        obtain ⟨x, hx, hbx⟩ := hall
        simp only [decide_eq_true_eq, not_le]
        exact lt_of_le_of_lt (listMinFrom_le_elem _ _ _ x hx)
          (lt_of_lt_of_le hbx (not_lt.mp hVb))

/-- C7, amended: each root candidate is searched with a fresh full
(-inf, +inf) window (visible in `rootCandidateVal`), the comparison is
strict in the direction of the root's side to move, and the returned move is
the first one attaining the best candidate score — except that when the best
score equals the initial sentinel (-inf for White, +inf for Black) no
candidate ever strictly beats the sentinel and `none` is returned. -/
theorem root_selection (p : Position) (d : Nat) :
    (p.turn = true → select_move p d =
      (p.legalMoves.find? (fun mc =>
        decide (rootCandidateVal d mc = listMaxFrom (rootCandidateVal d) p.legalMoves ⊥ ∧
          listMaxFrom (rootCandidateVal d) p.legalMoves ⊥ ≠ ⊥))).map Prod.fst) ∧
    (p.turn = false → select_move p d =
      (p.legalMoves.find? (fun mc =>
        decide (rootCandidateVal d mc = listMinFrom (rootCandidateVal d) p.legalMoves ⊤ ∧
          listMinFrom (rootCandidateVal d) p.legalMoves ⊤ ≠ ⊤))).map Prod.fst) := by
  constructor
  · intro hp
    have hsel : select_move p d = selectLoop d p p.legalMoves ⊥ none := by
      simp [select_move, hp]
    rw [hsel, selectLoop_white p hp d p.legalMoves ⊥ none]
    by_cases hall : ∀ mc ∈ p.legalMoves, rootCandidateVal d mc ≤ ⊥
    · rw [if_pos hall]
      have hM : listMaxFrom (rootCandidateVal d) p.legalMoves ⊥ = ⊥ :=
        le_bot_iff.mp ((listMaxFrom_le_iff _ _ _ _).mpr ⟨le_rfl, hall⟩)
      have hnone : p.legalMoves.find? (fun mc =>
          decide (rootCandidateVal d mc = listMaxFrom (rootCandidateVal d) p.legalMoves ⊥ ∧
            listMaxFrom (rootCandidateVal d) p.legalMoves ⊥ ≠ ⊥)) = none := by
        rw [List.find?_eq_none]
        intro x _
        simp only [decide_eq_true_eq, not_and]
        intro _ h
        exact absurd hM h
      rw [hnone]
      rfl
    · rw [if_neg hall]
      push_neg at hall
      obtain ⟨x, hx, hbx⟩ := hall
      have hM_ne : listMaxFrom (rootCandidateVal d) p.legalMoves ⊥ ≠ ⊥ :=
        (lt_of_lt_of_le hbx (elem_le_listMaxFrom _ _ _ x hx)).ne'
      refine congrArg (fun o => Option.map Prod.fst o) (find_congr_mem _ _ _ ?_)
      intro y hy
      refine decide_eq_decide.mpr ⟨fun h => ⟨le_antisymm (elem_le_listMaxFrom _ _ _ y hy) h,
        hM_ne⟩, fun h => le_of_eq h.1.symm⟩
  · intro hp
    have hsel : select_move p d = selectLoop d p p.legalMoves ⊤ none := by
      simp [select_move, hp]
    rw [hsel, selectLoop_black p hp d p.legalMoves ⊤ none]
    by_cases hall : ∀ mc ∈ p.legalMoves, ⊤ ≤ rootCandidateVal d mc
    · rw [if_pos hall]
      have hM : listMinFrom (rootCandidateVal d) p.legalMoves ⊤ = ⊤ :=
        top_le_iff.mp ((le_listMinFrom_iff _ _ _ _).mpr ⟨le_rfl, hall⟩)
      have hnone : p.legalMoves.find? (fun mc =>
          decide (rootCandidateVal d mc = listMinFrom (rootCandidateVal d) p.legalMoves ⊤ ∧
            listMinFrom (rootCandidateVal d) p.legalMoves ⊤ ≠ ⊤)) = none := by
        rw [List.find?_eq_none]
        intro x _
        simp only [decide_eq_true_eq, not_and]
        intro _ h
        exact absurd hM h
      rw [hnone]
      rfl
    · rw [if_neg hall]
      push_neg at hall
      obtain ⟨x, hx, hbx⟩ := hall
      have hM_ne : listMinFrom (rootCandidateVal d) p.legalMoves ⊤ ≠ ⊤ :=
        (lt_of_le_of_lt (listMinFrom_le_elem _ _ _ x hx) hbx).ne
      refine congrArg (fun o => Option.map Prod.fst o) (find_congr_mem _ _ _ ?_)
      intro y hy
      refine decide_eq_decide.mpr ⟨fun h => ⟨le_antisymm h (listMinFrom_le_elem _ _ _ y hy),
        hM_ne⟩, fun h => le_of_eq h.1⟩

/-- Witness for the amended C7: at the concrete root `rootC1`, White to
move, the selector returns the first (and only) candidate, whose score 5 is
the maximum. -/
theorem root_selection_witness : select_move rootC1 2 = some 0 := by
  have h := (root_selection rootC1 2).1 rfl
  rw [h]
  rfl

/-- Counterexample to C7 as stated: at `rootMated` every candidate scores
-inf, so all candidates tie for the best score, yet the selector returns
`none` rather than the first-seen candidate (move 0). -/
theorem tie_break_counterexample :
    rootMated.turn = true ∧
    rootMated.legalMoves.map (rootCandidateVal 2) = [⊥, ⊥] ∧
    select_move rootMated 2 ≠ some 0 ∧ select_move rootMated 2 = none :=
  ⟨rfl, rfl, by decide, rfl⟩

/-- C3, amended: the selector returns `none` exactly when either White is to
move and every candidate scores -inf (in particular when there is no legal
move), or Black is to move and every candidate scores +inf.  With at least
one legal move present, a `none` return is still possible: it happens
exactly when all candidate scores equal the initial sentinel. -/
theorem none_only_when (p : Position) (d : Nat) :
    select_move p d = none ↔
      ((p.turn = true ∧ ∀ mc ∈ p.legalMoves, rootCandidateVal d mc = ⊥) ∨
       (p.turn = false ∧ ∀ mc ∈ p.legalMoves, rootCandidateVal d mc = ⊤)) := by
  cases hp : p.turn with
  | true =>
    have hsel : select_move p d = selectLoop d p p.legalMoves ⊥ none := by
      simp [select_move, hp]
    rw [hsel, selectLoop_white p hp d p.legalMoves ⊥ none]
    by_cases hall : ∀ mc ∈ p.legalMoves, rootCandidateVal d mc ≤ ⊥
    · rw [if_pos hall]
      constructor
      · intro _
        exact Or.inl ⟨rfl, fun mc hmc => le_bot_iff.mp (hall mc hmc)⟩
      · intro _
        rfl
    · rw [if_neg hall]
      constructor
      · intro hnone
        exfalso
        have hfind := List.find?_eq_none.mp (Option.map_eq_none'.mp hnone)
        push_neg at hall
        obtain ⟨x, hx, hbx⟩ := hall
        rcases listMaxFrom_cases (rootCandidateVal d) p.legalMoves ⊥ with hc | ⟨y, hy, hc⟩
        · exact absurd hc (lt_of_lt_of_le hbx (elem_le_listMaxFrom _ _ _ x hx)).ne'
        · exact hfind y hy (decide_eq_true (le_of_eq hc))
      · intro hor
        rcases hor with ⟨_, hall'⟩ | ⟨hf, _⟩
        · exact absurd (fun mc hmc => le_of_eq (hall' mc hmc)) hall
        · exact Bool.noConfusion hf
  | false =>
    have hsel : select_move p d = selectLoop d p p.legalMoves ⊤ none := by
      simp [select_move, hp]
    rw [hsel, selectLoop_black p hp d p.legalMoves ⊤ none]
    by_cases hall : ∀ mc ∈ p.legalMoves, ⊤ ≤ rootCandidateVal d mc
    · rw [if_pos hall]
      constructor
      · intro _
        exact Or.inr ⟨rfl, fun mc hmc => top_le_iff.mp (hall mc hmc)⟩
      · intro _
        rfl
    · rw [if_neg hall]
      constructor
      · intro hnone
        exfalso
        have hfind := List.find?_eq_none.mp (Option.map_eq_none'.mp hnone)
        push_neg at hall
        obtain ⟨x, hx, hbx⟩ := hall
        rcases listMinFrom_cases (rootCandidateVal d) p.legalMoves ⊤ with hc | ⟨y, hy, hc⟩
        · exact absurd hc (lt_of_le_of_lt (listMinFrom_le_elem _ _ _ x hx) hbx).ne
        · exact hfind y hy (decide_eq_true (le_of_eq hc.symm))
      · intro hor
        rcases hor with ⟨hf, _⟩ | ⟨_, hall'⟩
        · exact Bool.noConfusion hf
        · exact absurd (fun mc hmc => le_of_eq (hall' mc hmc).symm) hall

/-- Witness for the amended C3: at `rootMated` every candidate scores -inf,
and the selector indeed returns `none`. -/
theorem none_only_when_witness : select_move rootMated 2 = none :=
  (none_only_when rootMated 2).mpr (Or.inl ⟨rfl, by decide⟩)

/-- Counterexample to C3 as stated: `rootMated` has two legal moves, yet the
selector returns `none`, because every candidate move runs into a forced
mate and scores -inf. -/
theorem select_none_counterexample :
    rootMated.legalMoves ≠ [] ∧ select_move rootMated 2 = none :=
  ⟨fun h => List.noConfusion h, rfl⟩

/-!
State restoration: every push made inside a call is popped before the call
returns, on every return path.
-/

theorem pop_push (st : BoardState) (c : Position) : (st.push c).pop = st := rfl

theorem loopMaxSt_state (f : BoardState → Score → Score → Score × BoardState)
    (hf : ∀ s a b, (f s a b).2 = s) :
    ∀ (l : List (Move × Position)) (st : BoardState) (α β v : Score),
      (loopMaxSt f l st α β v).2 = st := by
  intro l
  induction l with
  | nil =>
    intro st α β v
    rfl
  | cons mc l ih =>
    intro st α β v
    have hstep : loopMaxSt f (mc :: l) st α β v =
        if β ≤ max α (max v (f (st.push mc.2) α β).1) then
          (max v (f (st.push mc.2) α β).1, ((f (st.push mc.2) α β).2).pop)
        else loopMaxSt f l (((f (st.push mc.2) α β).2).pop)
          (max α (max v (f (st.push mc.2) α β).1)) β
          (max v (f (st.push mc.2) α β).1) := rfl
    have hst2 : ((f (st.push mc.2) α β).2).pop = st := by
      rw [hf (st.push mc.2) α β]
      exact pop_push st mc.2
    rw [hstep, hst2]
    split
    · rfl
    · exact ih st _ _ _

theorem loopMinSt_state (f : BoardState → Score → Score → Score × BoardState)
    (hf : ∀ s a b, (f s a b).2 = s) :
    ∀ (l : List (Move × Position)) (st : BoardState) (α β v : Score),
      (loopMinSt f l st α β v).2 = st := by
  intro l
  induction l with
  | nil =>
    intro st α β v
    rfl
  | cons mc l ih =>
    intro st α β v
    have hstep : loopMinSt f (mc :: l) st α β v =
        if min β (min v (f (st.push mc.2) α β).1) ≤ α then
          (min v (f (st.push mc.2) α β).1, ((f (st.push mc.2) α β).2).pop)
        else loopMinSt f l (((f (st.push mc.2) α β).2).pop) α
          (min β (min v (f (st.push mc.2) α β).1))
          (min v (f (st.push mc.2) α β).1) := rfl
    have hst2 : ((f (st.push mc.2) α β).2).pop = st := by
      rw [hf (st.push mc.2) α β]
      exact pop_push st mc.2
    rw [hstep, hst2]
    split
    · rfl
    · exact ih st _ _ _

theorem alpha_beta_st_state :
    ∀ (d : Nat) (st : BoardState) (α β : Score) (maximizing : Bool),
      (alpha_beta_st st d α β maximizing).2 = st := by
  intro d
  induction d with
  | zero =>
    intro st α β maximizing
    rfl
  | succ d ih =>
    intro st α β maximizing
    by_cases hg : st.cur.isGameOver = true
    · simp [alpha_beta_st, hg]
    · cases maximizing with
      | true =>
        have h1 : alpha_beta_st st (d + 1) α β true =
            loopMaxSt (fun s a b => alpha_beta_st s d a b false)
              st.cur.legalMoves st α β ⊥ := by
          simp [alpha_beta_st, hg]
        rw [h1]
        exact loopMaxSt_state _ (fun s a b => ih s a b false) _ st α β ⊥
      | false =>
        have h1 : alpha_beta_st st (d + 1) α β false =
            loopMinSt (fun s a b => alpha_beta_st s d a b true)
              st.cur.legalMoves st α β ⊤ := by
          simp [alpha_beta_st, hg]
        rw [h1]
        exact loopMinSt_state _ (fun s a b => ih s a b true) _ st α β ⊤

theorem selectLoopSt_state (d : Nat) :
    ∀ (l : List (Move × Position)) (st : BoardState) (b : Score) (best : Option Move),
      (selectLoopSt d l st b best).2 = st := by
  intro l
  induction l with
  | nil =>
    intro st b best
    rfl
  | cons mc l ih =>
    intro st b best
    have hstep : selectLoopSt d (mc :: l) st b best =
        if ((((alpha_beta_st (st.push mc.2) (d - 1) ⊥ ⊤
              (rootCallFlag (st.push mc.2).cur)).2).pop).cur.turn = true ∧
            b < (alpha_beta_st (st.push mc.2) (d - 1) ⊥ ⊤
              (rootCallFlag (st.push mc.2).cur)).1) then
          selectLoopSt d l (((alpha_beta_st (st.push mc.2) (d - 1) ⊥ ⊤
              (rootCallFlag (st.push mc.2).cur)).2).pop)
            (alpha_beta_st (st.push mc.2) (d - 1) ⊥ ⊤
              (rootCallFlag (st.push mc.2).cur)).1 (some mc.1)
        else if ((((alpha_beta_st (st.push mc.2) (d - 1) ⊥ ⊤
              (rootCallFlag (st.push mc.2).cur)).2).pop).cur.turn = false ∧
            (alpha_beta_st (st.push mc.2) (d - 1) ⊥ ⊤
              (rootCallFlag (st.push mc.2).cur)).1 < b) then
          selectLoopSt d l (((alpha_beta_st (st.push mc.2) (d - 1) ⊥ ⊤
              (rootCallFlag (st.push mc.2).cur)).2).pop)
            (alpha_beta_st (st.push mc.2) (d - 1) ⊥ ⊤
              (rootCallFlag (st.push mc.2).cur)).1 (some mc.1)
        else selectLoopSt d l (((alpha_beta_st (st.push mc.2) (d - 1) ⊥ ⊤
            (rootCallFlag (st.push mc.2).cur)).2).pop) b best := rfl
    have hst2 : ((alpha_beta_st (st.push mc.2) (d - 1) ⊥ ⊤
        (rootCallFlag (st.push mc.2).cur)).2).pop = st := by
      rw [alpha_beta_st_state (d - 1) (st.push mc.2) ⊥ ⊤ (rootCallFlag (st.push mc.2).cur)]
      exact pop_push st mc.2
    rw [hstep, hst2]
    split
    · exact ih st _ _
    · split
      · exact ih st _ _
      · exact ih st _ _

theorem select_move_st_state (st : BoardState) (d : Nat) :
    (select_move_st st d).2 = st :=
  selectLoopSt_state d st.cur.legalMoves st _ none

/-- C4: after any `alpha_beta` call and any `select_move` call returns —
through the normal end of the move loop or through a pruning break — the
board handle is exactly its pre-call state: every pushed move has been
popped on every return path. -/
theorem push_pop_invariant (st : BoardState) (d : Nat) (α β : Score) (maximizing : Bool) :
    (alpha_beta_st st d α β maximizing).2 = st ∧ (select_move_st st d).2 = st :=
  ⟨alpha_beta_st_state d st α β maximizing, select_move_st_state st d⟩

/-!
The explicit-state search computes the same scores as the pure one: the two
embeddings of the source agree.
-/

theorem loopMaxSt_fst (f : BoardState → Score → Score → Score × BoardState)
    (fp : Position → Score → Score → Score)
    (hf2 : ∀ s a b, (f s a b).2 = s)
    (hf1 : ∀ s a b, (f s a b).1 = fp s.cur a b) :
    ∀ (l : List (Move × Position)) (st : BoardState) (α β v : Score),
      (loopMaxSt f l st α β v).1 = loopMax fp l α β v := by
  intro l
  induction l with
  | nil =>
    intro st α β v
    rfl
  | cons mc l ih =>
    intro st α β v
    have hstepL : loopMaxSt f (mc :: l) st α β v =
        if β ≤ max α (max v (f (st.push mc.2) α β).1) then
          (max v (f (st.push mc.2) α β).1, ((f (st.push mc.2) α β).2).pop)
        else loopMaxSt f l (((f (st.push mc.2) α β).2).pop)
          (max α (max v (f (st.push mc.2) α β).1)) β
          (max v (f (st.push mc.2) α β).1) := rfl
    have hstepR : loopMax fp (mc :: l) α β v =
        if β ≤ max α (max v (fp mc.2 α β)) then max v (fp mc.2 α β)
        else loopMax fp l (max α (max v (fp mc.2 α β))) β (max v (fp mc.2 α β)) := rfl
    have hr1 : (f (st.push mc.2) α β).1 = fp mc.2 α β := hf1 (st.push mc.2) α β
    have hst2 : ((f (st.push mc.2) α β).2).pop = st := by
      rw [hf2 (st.push mc.2) α β]
      exact pop_push st mc.2
    rw [hstepL, hstepR, hr1, hst2]
    by_cases hc : β ≤ max α (max v (fp mc.2 α β))
    · rw [if_pos hc, if_pos hc]
    · rw [if_neg hc, if_neg hc]
      exact ih st _ _ _

theorem loopMinSt_fst (f : BoardState → Score → Score → Score × BoardState)
    (fp : Position → Score → Score → Score)
    (hf2 : ∀ s a b, (f s a b).2 = s)
    (hf1 : ∀ s a b, (f s a b).1 = fp s.cur a b) :
    ∀ (l : List (Move × Position)) (st : BoardState) (α β v : Score),
      (loopMinSt f l st α β v).1 = loopMin fp l α β v := by
  intro l
  induction l with
  | nil =>
    intro st α β v
    rfl
  | cons mc l ih =>
    intro st α β v
    have hstepL : loopMinSt f (mc :: l) st α β v =
        if min β (min v (f (st.push mc.2) α β).1) ≤ α then
          (min v (f (st.push mc.2) α β).1, ((f (st.push mc.2) α β).2).pop)
        else loopMinSt f l (((f (st.push mc.2) α β).2).pop) α
          (min β (min v (f (st.push mc.2) α β).1))
          (min v (f (st.push mc.2) α β).1) := rfl
    have hstepR : loopMin fp (mc :: l) α β v =
        if min β (min v (fp mc.2 α β)) ≤ α then min v (fp mc.2 α β)
        else loopMin fp l α (min β (min v (fp mc.2 α β))) (min v (fp mc.2 α β)) := rfl
    have hr1 : (f (st.push mc.2) α β).1 = fp mc.2 α β := hf1 (st.push mc.2) α β
    have hst2 : ((f (st.push mc.2) α β).2).pop = st := by
      rw [hf2 (st.push mc.2) α β]
      exact pop_push st mc.2
    rw [hstepL, hstepR, hr1, hst2]
    by_cases hc : min β (min v (fp mc.2 α β)) ≤ α
    · rw [if_pos hc, if_pos hc]
    · rw [if_neg hc, if_neg hc]
      exact ih st _ _ _

theorem alpha_beta_st_fst :
    ∀ (d : Nat) (st : BoardState) (α β : Score) (maximizing : Bool),
      (alpha_beta_st st d α β maximizing).1 = alpha_beta st.cur d α β maximizing := by
  intro d
  induction d with
  | zero =>
    intro st α β maximizing
    rfl
  | succ d ih =>
    intro st α β maximizing
    by_cases hg : st.cur.isGameOver = true
    · simp [alpha_beta_st, alpha_beta, hg]
    · cases maximizing with
      | true =>
        have h1 : alpha_beta_st st (d + 1) α β true =
            loopMaxSt (fun s a b => alpha_beta_st s d a b false)
              st.cur.legalMoves st α β ⊥ := by
          simp [alpha_beta_st, hg]
        have h2 : alpha_beta st.cur (d + 1) α β true =
            loopMax (fun c a b => alpha_beta c d a b false)
              st.cur.legalMoves α β ⊥ := by
          simp [alpha_beta, hg]
        rw [h1, h2]
        exact loopMaxSt_fst _ _ (fun s a b => alpha_beta_st_state d s a b false)
          (fun s a b => ih s a b false) st.cur.legalMoves st α β ⊥
      | false =>
        have h1 : alpha_beta_st st (d + 1) α β false =
            loopMinSt (fun s a b => alpha_beta_st s d a b true)
              st.cur.legalMoves st α β ⊤ := by
          simp [alpha_beta_st, hg]
        have h2 : alpha_beta st.cur (d + 1) α β false =
            loopMin (fun c a b => alpha_beta c d a b true)
              st.cur.legalMoves α β ⊤ := by
          simp [alpha_beta, hg]
        rw [h1, h2]
        exact loopMinSt_fst _ _ (fun s a b => alpha_beta_st_state d s a b true)
          (fun s a b => ih s a b true) st.cur.legalMoves st α β ⊤

theorem selectLoopSt_fst (d : Nat) (st : BoardState) :
    ∀ (l : List (Move × Position)) (b : Score) (best : Option Move),
      (selectLoopSt d l st b best).1 = selectLoop d st.cur l b best := by
  intro l
  induction l with
  | nil =>
    intro b best
    rfl
  | cons mc l ih =>
    intro b best
    have hstepL : selectLoopSt d (mc :: l) st b best =
        if ((((alpha_beta_st (st.push mc.2) (d - 1) ⊥ ⊤
              (rootCallFlag (st.push mc.2).cur)).2).pop).cur.turn = true ∧
            b < (alpha_beta_st (st.push mc.2) (d - 1) ⊥ ⊤
              (rootCallFlag (st.push mc.2).cur)).1) then
          selectLoopSt d l (((alpha_beta_st (st.push mc.2) (d - 1) ⊥ ⊤
              (rootCallFlag (st.push mc.2).cur)).2).pop)
            (alpha_beta_st (st.push mc.2) (d - 1) ⊥ ⊤
              (rootCallFlag (st.push mc.2).cur)).1 (some mc.1)
        else if ((((alpha_beta_st (st.push mc.2) (d - 1) ⊥ ⊤
              (rootCallFlag (st.push mc.2).cur)).2).pop).cur.turn = false ∧
            (alpha_beta_st (st.push mc.2) (d - 1) ⊥ ⊤
              (rootCallFlag (st.push mc.2).cur)).1 < b) then
          selectLoopSt d l (((alpha_beta_st (st.push mc.2) (d - 1) ⊥ ⊤
              (rootCallFlag (st.push mc.2).cur)).2).pop)
            (alpha_beta_st (st.push mc.2) (d - 1) ⊥ ⊤
              (rootCallFlag (st.push mc.2).cur)).1 (some mc.1)
        else selectLoopSt d l (((alpha_beta_st (st.push mc.2) (d - 1) ⊥ ⊤
            (rootCallFlag (st.push mc.2).cur)).2).pop) b best := rfl
    have hstepR : selectLoop d st.cur (mc :: l) b best =
        if st.cur.turn = true ∧ b < rootCandidateVal d mc then
          selectLoop d st.cur l (rootCandidateVal d mc) (some mc.1)
        else if st.cur.turn = false ∧ rootCandidateVal d mc < b then
          selectLoop d st.cur l (rootCandidateVal d mc) (some mc.1)
        else selectLoop d st.cur l b best := rfl
    have hst2 : ((alpha_beta_st (st.push mc.2) (d - 1) ⊥ ⊤
        (rootCallFlag (st.push mc.2).cur)).2).pop = st := by
      rw [alpha_beta_st_state (d - 1) (st.push mc.2) ⊥ ⊤ (rootCallFlag (st.push mc.2).cur)]
      exact pop_push st mc.2
    have hr1 : (alpha_beta_st (st.push mc.2) (d - 1) ⊥ ⊤
        (rootCallFlag (st.push mc.2).cur)).1 = rootCandidateVal d mc :=
      alpha_beta_st_fst (d - 1) (st.push mc.2) ⊥ ⊤ (rootCallFlag (st.push mc.2).cur)
    rw [hstepL, hstepR, hst2, hr1]
    by_cases h1c : st.cur.turn = true ∧ b < rootCandidateVal d mc
    · rw [if_pos h1c, if_pos h1c]
      exact ih _ _
    · rw [if_neg h1c, if_neg h1c]
      by_cases h2c : st.cur.turn = false ∧ rootCandidateVal d mc < b
      · rw [if_pos h2c, if_pos h2c]
        exact ih _ _
      · rw [if_neg h2c, if_neg h2c]
        exact ih _ _

theorem select_move_st_fst (st : BoardState) (d : Nat) :
    (select_move_st st d).1 = select_move st.cur d :=
  selectLoopSt_fst d st st.cur.legalMoves _ none

/-!
Fuel: depth + 1 units of fuel always complete the search, because every
recursive call strictly decreases the depth by one.
-/

theorem loopMaxF_some (f : Position → Score → Score → Option Score)
    (fp : Position → Score → Score → Score)
    (hf : ∀ c a b, f c a b = some (fp c a b)) :
    ∀ (l : List (Move × Position)) (α β v : Score),
      loopMaxF f l α β v = some (loopMax fp l α β v) := by
  intro l
  induction l with
  | nil =>
    intro α β v
    rfl
  | cons mc l ih =>
    intro α β v
    have hstepL : loopMaxF f (mc :: l) α β v =
        match f mc.2 α β with
        | none => none
        | some r =>
          if β ≤ max α (max v r) then some (max v r)
          else loopMaxF f l (max α (max v r)) β (max v r) := rfl
    have hstepR : loopMax fp (mc :: l) α β v =
        if β ≤ max α (max v (fp mc.2 α β)) then max v (fp mc.2 α β)
        else loopMax fp l (max α (max v (fp mc.2 α β))) β (max v (fp mc.2 α β)) := rfl
    rw [hstepL, hstepR, hf mc.2 α β]
    by_cases hc : β ≤ max α (max v (fp mc.2 α β))
    · simp only [if_pos hc]
    · simp only [if_neg hc]
      exact ih _ _ _

theorem loopMinF_some (f : Position → Score → Score → Option Score)
    (fp : Position → Score → Score → Score)
    (hf : ∀ c a b, f c a b = some (fp c a b)) :
    ∀ (l : List (Move × Position)) (α β v : Score),
      loopMinF f l α β v = some (loopMin fp l α β v) := by
  intro l
  induction l with
  | nil =>
    intro α β v
    rfl
  | cons mc l ih =>
    intro α β v
    have hstepL : loopMinF f (mc :: l) α β v =
        match f mc.2 α β with
        | none => none
        | some r =>
          if min β (min v r) ≤ α then some (min v r)
          else loopMinF f l α (min β (min v r)) (min v r) := rfl
    have hstepR : loopMin fp (mc :: l) α β v =
        if min β (min v (fp mc.2 α β)) ≤ α then min v (fp mc.2 α β)
        else loopMin fp l α (min β (min v (fp mc.2 α β))) (min v (fp mc.2 α β)) := rfl
    rw [hstepL, hstepR, hf mc.2 α β]
    by_cases hc : min β (min v (fp mc.2 α β)) ≤ α
    · simp only [if_pos hc]
    · simp only [if_neg hc]
      exact ih _ _ _

/-- C10: the search always terminates within a call-depth budget of
depth + 1, because each recursive call is made at depth - 1: the
fuel-instrumented search with exactly depth + 1 units of fuel never runs
out and returns the value of the (total, structurally recursive)
`alpha_beta`. -/
theorem alpha_beta_terminates (p : Position) (d : Nat) (α β : Score) (maximizing : Bool) :
    alpha_beta_fuel (d + 1) p d α β maximizing = some (alpha_beta p d α β maximizing) := by
  induction d generalizing p α β maximizing with
  | zero =>
    rw [show alpha_beta_fuel 1 p 0 α β maximizing =
      if (0 : Nat) = 0 ∨ p.isGameOver = true then some (evaluate_board p)
      else alpha_beta_fuel 1 p 0 α β maximizing from rfl]
    rw [if_pos (Or.inl rfl)]
    rfl
  | succ d ih =>
    have hunfold : alpha_beta_fuel (d + 2) p (d + 1) α β maximizing =
        if (d + 1 : Nat) = 0 ∨ p.isGameOver = true then some (evaluate_board p)
        else if maximizing = true then
          loopMaxF (fun c a b => alpha_beta_fuel (d + 1) c d a b false)
            p.legalMoves α β ⊥
        else loopMinF (fun c a b => alpha_beta_fuel (d + 1) c d a b true)
          p.legalMoves α β ⊤ := rfl
    by_cases hg : p.isGameOver = true
    · have h2 : alpha_beta p (d + 1) α β maximizing = evaluate_board p := by
        simp [alpha_beta, hg]
      rw [hunfold, if_pos (Or.inr hg), h2]
    · have hcond : ¬((d + 1 : Nat) = 0 ∨ p.isGameOver = true) := by
        rintro (h | h)
        · exact Nat.succ_ne_zero d h
        · exact hg h
      rw [hunfold, if_neg hcond]
      cases maximizing with
      | true =>
        rw [if_pos rfl]
        have h2 : alpha_beta p (d + 1) α β true =
            loopMax (fun c a b => alpha_beta c d a b false) p.legalMoves α β ⊥ := by
          simp [alpha_beta, hg]
        rw [h2]
        exact loopMaxF_some _ _ (fun c a b => ih c a b false) p.legalMoves α β ⊥
      | false =>
        rw [if_neg (by simp)]
        have h2 : alpha_beta p (d + 1) α β false =
            loopMin (fun c a b => alpha_beta c d a b true) p.legalMoves α β ⊤ := by
          simp [alpha_beta, hg]
        rw [h2]
        exact loopMinF_some _ _ (fun c a b => ih c a b true) p.legalMoves α β ⊤

end ChessAB
